import Mathlib

/-
Verification of the adder-dp repository core against its specification.

The development shallowly embeds the two core components:
  * `AtomicBitVec` (src/vendor/atomic-bitvec/src/lib.rs): a growable bit set
    backed by 64-bit words.  Words are modelled as `Nat` values (< 2^64 for
    every reachable state); atomic fetch_or / fetch_and are modelled as pure
    word updates, which is adequate because the program only mutates a row
    with monotonic OR-writes while it is under construction and the sweeps
    read exclusively from the previous, frozen row.  Out-of-bounds indexing
    (a Rust panic) is modelled by returning `none`.
  * `run_algorithm` (src/algorithm/src/lib.rs): the subset-sum DP engine.
    The rayon parallel sweeps are modelled as sequential folds over the same
    index range; this is faithful for the final row contents because each
    sweep only performs idempotent monotonic set-true operations reading the
    frozen previous row, so the outcome is independent of interleaving.
    `usize`/`isize` casts are modelled explicitly (wrapping reinterpretation).

Panics are modelled by `Option`: a `none` result of `run_algorithm`'s second
component means the Rust program panics on that input.
-/

/-- Model of `AtomicBitVec` (src/vendor/atomic-bitvec/src/lib.rs): the backing
store is the list of 64-bit words (`Vec<AtomicU64>`). -/
structure AtomicBitVec where
  data : List Nat
deriving DecidableEq, Repr

namespace AtomicBitVec

/-- Source: `const fn next_mul_64(v: usize) -> usize { (v + 64) & !63 }`.
In 64-bit release semantics the addition wraps modulo 2^64; masking with
`!63 = 2^64 - 64` gives the same result whether or not the sum is first
reduced modulo 2^64, because any wrapped sum is below 64.  We therefore use
the un-reduced form, which agrees with the wrapped Rust value for every
`usize` argument. -/
def next_mul_64 (v : Nat) : Nat :=
  (v + 64) &&& (2 ^ 64 - 64)

/-- Source: `AtomicBitVec::new`, an empty vector. -/
def new : AtomicBitVec := ⟨[]⟩

/-- Source: `AtomicBitVec::with_capacity(blocks)`.  `Vec::with_capacity`
reserves space but stores no elements, so the model state is empty. -/
def with_capacity (_blocks : Nat) : AtomicBitVec := ⟨[]⟩

/-- Source: `AtomicBitVec::with_bit_capacity(bit_cap)`. -/
def with_bit_capacity (bit_cap : Nat) : AtomicBitVec :=
  with_capacity (next_mul_64 bit_cap / 64)

/-- Source: `AtomicBitVec::resize_blocks_with(new_blocks, f)`, i.e.
`Vec::resize_with`: truncate when shrinking, append generated elements when
growing.  The generator is modelled as a function of the appended position. -/
def resize_blocks_with (s : AtomicBitVec) (new_blocks : Nat) (f : Nat → Nat) : AtomicBitVec :=
  if new_blocks ≤ s.data.length then ⟨s.data.take new_blocks⟩
  else ⟨s.data ++ (List.range (new_blocks - s.data.length)).map f⟩

/-- Source: `AtomicBitVec::resize_bits_with(new_bits, f)`. -/
def resize_bits_with (s : AtomicBitVec) (new_bits : Nat) (f : Nat → Nat) : AtomicBitVec :=
  s.resize_blocks_with (next_mul_64 new_bits / 64) f

/-- Source: `AtomicBitVec::block_cnt`. -/
def block_cnt (s : AtomicBitVec) : Nat := s.data.length

/-- Source: `AtomicBitVec::len`, `self.block_cnt() * 64`. -/
def len (s : AtomicBitVec) : Nat := s.block_cnt * 64

/-- Source: `AtomicBitVec::loc_and_mask(idx)`:
`mask = 1u64 << (idx & 63)`, `block = idx >> 6`. -/
def loc_and_mask (idx : Nat) : Nat × Nat :=
  (idx >>> 6, 1 <<< (idx &&& 63))

/-- Source: `AtomicBitVec::get(idx, ordering)`.  `none` models the panic on an
out-of-bounds block index. -/
def get (s : AtomicBitVec) (idx : Nat) : Option Bool :=
  let lm := loc_and_mask idx
  match s.data[lm.1]? with
  | none => none
  | some w => some ((w &&& lm.2) != 0)

/-- Source: `AtomicBitVec::set(idx, value, ordering)`: fetch_or of the mask,
or fetch_and of `!mask = mask ^ u64::MAX`, returning the previous bit.
`none` models the panic on an out-of-bounds block index. -/
def set (s : AtomicBitVec) (idx : Nat) (value : Bool) : Option (Bool × AtomicBitVec) :=
  let lm := loc_and_mask idx
  match s.data[lm.1]? with
  | none => none
  | some w =>
    if value then
      some ((w &&& lm.2) != 0, ⟨s.data.set lm.1 (w ||| lm.2)⟩)
    else
      some ((w &&& lm.2) != 0, ⟨s.data.set lm.1 (w &&& (lm.2 ^^^ (2 ^ 64 - 1)))⟩)

/-- Abstract view of a stored bit (with 0 as the default word): the testBit of
the containing word.  Pure helper for stating lemmas; not part of the source. -/
def bitAt (s : AtomicBitVec) (idx : Nat) : Bool :=
  ((s.data[idx / 64]?).getD 0).testBit (idx % 64)

end AtomicBitVec

namespace Algorithm

/-- Model of the `as usize` reinterpretation of a signed 64-bit value:
wrapping modulo 2^64. -/
def usizeOfInt (x : Int) : Nat := (x % (2 ^ 64 : Int)).toNat

/-- Model of the `as isize` reinterpretation of a usize value: values at or
above 2^63 become negative. -/
def isizeOfUsize (n : Nat) : Int :=
  if n < 2 ^ 63 then (n : Int) else (n : Int) - 2 ^ 64

/-- Source (src/algorithm/src/lib.rs lines 9-13): sum of the absolute values
of the negative entries. -/
def most_negative (entries : List Int) : Nat :=
  ((entries.filter (fun x => decide (x < 0))).map (fun x => (-x).toNat)).sum

/-- Source (lines 15-19): sum of the positive entries. -/
def most_positive (entries : List Int) : Nat :=
  ((entries.filter (fun x => decide (0 < x))).map (fun x => x.toNat)).sum

/-- Source (line 21). -/
def zero_index (entries : List Int) : Nat := most_negative entries

/-- Source (line 23). -/
def sum_size (entries : List Int) : Nat :=
  most_negative entries + 1 + most_positive entries

/-- Source: the per-row allocation in `create_dp_table` (lines 102-112):
`with_bit_capacity(sum_size)` then `resize_bits_with(sum_size, || AtomicU64::new(0))`. -/
def create_row (ss : Nat) : AtomicBitVec :=
  (AtomicBitVec.with_bit_capacity ss).resize_bits_with ss (fun _ => 0)

/-- Source: `set_true` of the `AtomicBitVecExt` trait (line 124); the previous
value returned by `set` is discarded. -/
def set_true (s : AtomicBitVec) (idx : Nat) : Option AtomicBitVec :=
  (s.set idx true).map Prod.snd

/-- Source: `load` of the `AtomicBitVecExt` trait (line 120). -/
def load (s : AtomicBitVec) (idx : Nat) : Option Bool := s.get idx

/-- One sweep over the index range 0..sum_size, sequentialised from the rayon
parallel for_each: for each j the test is evaluated against the frozen
previous row and, when true, bit j of the row under construction is set.
The final row contents do not depend on the iteration order because the only
mutations are idempotent monotonic set-true calls.  A `none` models a panic
inside the closure. -/
def sweep (test : Nat → Option Bool) (ss : Nat) (row : AtomicBitVec) :
    Option AtomicBitVec :=
  (List.range ss).foldl
    (fun acc j => do
      let r ← acc
      let b ← test j
      if b then set_true r j else pure r)
    (some row)

/-- Carry-forward sweep test (lines 43-48): `dp_table[i - 1].load(j)`. -/
def carry_test (prev : AtomicBitVec) (j : Nat) : Option Bool := load prev j

/-- Shift sweep test (lines 50-64): `index = (j as isize) - current_entry`;
skip when `index < 0` or `index as usize >= sum_size`; otherwise read the
previous row at `index`. -/
def shift_test (prev : AtomicBitVec) (current_entry : Int) (ss : Nat) (j : Nat) :
    Option Bool :=
  let index : Int := isizeOfUsize j - current_entry
  if index < 0 then some false
  else if decide (ss ≤ index.toNat) then some false
  else load prev index.toNat

/-- Construction of the row for loop iteration i (lines 37-66); `prev` is
`dp_table[i - 1]`, `none` when i = 0.  Every iteration first sets bit
`zero_index`; iteration 0 additionally sets `(zero_index as isize +
current_entry) as usize`, later iterations run the two sweeps. -/
def build_row (prev : Option AtomicBitVec) (current_entry : Int) (zi ss : Nat) :
    Option AtomicBitVec :=
  match prev with
  | none => do
    let r ← set_true (create_row ss) zi
    set_true r (usizeOfInt (isizeOfUsize zi + current_entry))
  | some p => do
    let r ← set_true (create_row ss) zi
    let r ← sweep (carry_test p) ss r
    sweep (shift_test p current_entry ss) ss r

/-- The sequential outer loop over rows (lines 30-66).  The first component
records the values stored to the progress counter: `i` is stored before row i
is processed (lines 31-33), so a failing row build still records its store.
The second component is `none` when some row build panics. -/
def build_rows (zi ss : Nat) :
    Option AtomicBitVec → Nat → List Int → List Nat × Option (List AtomicBitVec)
  | _, _, [] => ([], some [])
  | prev, i, e :: rest =>
    match build_row prev e zi ss with
    | none => ([i], none)
    | some r =>
      let (tr, res) := build_rows zi ss (some r) (i + 1) rest
      (i :: tr, res.map (r :: ·))

/-- The backtracking loop (lines 76-89).  The fuel argument is
`current_i + 1`; fuel 0 means the loop has run past `current_i = 0` and the
accumulated subset is returned as is.  An entry is included when
`current_i == 0 ||` the previous row does not reach `current_sum`; the loop
breaks once `current_sum == zero_index` (checked after the inclusion step).
Subset values are appended in push order (descending original index). -/
def reconstruct (rows : List AtomicBitVec) (entries : List Int) (zi : Nat) :
    Nat → Nat → List Int → Option (List Int)
  | 0, _, subset => some subset
  | ci + 1, current_sum, subset =>
    let necessary : Option Bool :=
      if ci = 0 then some true
      else match rows[ci - 1]? with
        | none => none
        | some row => (load row current_sum).map (fun b => !b)
    match necessary with
    | none => none
    | some nec =>
      let step : Option (List Int × Nat) :=
        if nec then
          match entries[ci]? with
          | none => none
          | some must_include =>
            some (subset ++ [must_include],
              usizeOfInt (isizeOfUsize current_sum - must_include))
        else some (subset, current_sum)
      match step with
      | none => none
      | some (subset', current_sum') =>
        if current_sum' = zi then some subset'
        else reconstruct rows entries zi ci current_sum' subset'

/-- Completion check and reconstruction (lines 69-99): read
`dp_table[total - 1]` -- a panic when `total = 0` (the index underflows),
modelled by `getLast?` returning `none` -- then read the wanted bit
`(target as isize + zero_index as isize) as usize`, which panics when the
wrapped index falls outside the row storage; on a set bit run the
backtracking loop, otherwise return the Rust `None` (modelled `some none`). -/
def finish (target : Int) (entries : List Int) (dp_table : List AtomicBitVec) :
    Option (Option (List Int)) :=
  match dp_table.getLast? with
  | none => none
  | some last_row =>
    match load last_row (usizeOfInt (target + isizeOfUsize (zero_index entries))) with
    | none => none
    | some ex =>
      if ex then
        match reconstruct dp_table entries (zero_index entries) entries.length
            (usizeOfInt (target + isizeOfUsize (zero_index entries))) [] with
        | none => none
        | some subset => some (some subset)
      else some none

/-- Source: `run_algorithm(target, entries, progress)` (lines 6-100).
First component: the sequence of values stored to the progress counter when a
sink is supplied.  Second component: `none` models a panic, `some none` the
Rust `None`, `some (some subset)` the Rust `Some(subset)`. -/
def run_algorithm (target : Int) (entries : List Int) :
    List Nat × Option (Option (List Int)) :=
  let built := build_rows (zero_index entries) (sum_size entries) none 0 entries
  (built.1,
    match built.2 with
    | none => none
    | some dp_table => finish target entries dp_table)

/-- Specification predicate: some sub-multiset of the entries sums to t.
Sub-multisets of a list correspond to its sublists up to permutation, and
sums are permutation-invariant, so sublists capture exactly the sub-multiset
sums. -/
def sumsToTarget (entries : List Int) (t : Int) : Prop :=
  ∃ sub : List Int, sub.Sublist entries ∧ sub.sum = t

instance decSumsToTarget (l : List Int) (t : Int) : Decidable (sumsToTarget l t) :=
  decidable_of_iff (∃ s ∈ l.sublists, s.sum = t) (by
    constructor
    · rintro ⟨s, hs, he⟩; exact ⟨s, List.mem_sublists.mp hs, he⟩
    · rintro ⟨s, hs, he⟩; exact ⟨s, List.mem_sublists.mpr hs, he⟩)

/-- Invariant of a fully built row whose processed prefix of the entry list is
`pre`: the storage is one 64-bit block beyond `sum_size` bits, the bits below
`sum_size` are exactly the reachable subset sums of `pre` shifted by
`zero_index`, and the padding bits are clear. -/
def RowInv (r : AtomicBitVec) (ss zi : Nat) (pre : List Int) : Prop :=
  r.data.length = ss / 64 + 1 ∧
  (∀ b : Nat, b < ss → r.bitAt b = decide (sumsToTarget pre ((b : Int) - (zi : Int)))) ∧
  (∀ b : Nat, ss ≤ b → r.bitAt b = false)

end Algorithm

namespace AtomicBitVec

theorem shiftRight_six (idx : Nat) : idx >>> 6 = idx / 64 := by
  rw [Nat.shiftRight_eq_div_pow]

theorem and_63 (idx : Nat) : idx &&& 63 = idx % 64 := by
  have h := Nat.and_pow_two_sub_one_eq_mod idx 6
  norm_num at h
  exact h

theorem one_shiftLeft (k : Nat) : 1 <<< k = 2 ^ k := by
  rw [Nat.shiftLeft_eq, one_mul]

theorem and_two_pow_bne (w k : Nat) : ((w &&& 2 ^ k) != 0) = w.testBit k := by
  cases h : w.testBit k with
  | false =>
    have hz : w &&& 2 ^ k = 0 := by
      apply Nat.eq_of_testBit_eq
      intro i
      rw [Nat.testBit_land]
      by_cases hik : k = i
      · subst hik; simp [h]
      · simp [Nat.testBit_two_pow_of_ne hik]
    simp [hz]
  | true =>
    have hnz : w &&& 2 ^ k ≠ 0 := by
      intro h0
      have := congrArg (fun x => x.testBit k) h0
      simp only [Nat.testBit_land, Nat.testBit_two_pow_self, Bool.and_true,
        Nat.zero_testBit] at this
      rw [h] at this
      simp at this
    simp [hnz]

theorem lt_len_iff (s : AtomicBitVec) (idx : Nat) :
    idx < s.len ↔ idx / 64 < s.data.length := by
  unfold len block_cnt
  rw [Nat.div_lt_iff_lt_mul (by norm_num : 0 < 64)]

theorem get_eq_bitAt (s : AtomicBitVec) (idx : Nat) (h : idx / 64 < s.data.length) :
    s.get idx = some (s.bitAt idx) := by
  unfold get bitAt loc_and_mask
  rw [shiftRight_six, and_63, one_shiftLeft]
  have hw : s.data[idx / 64]? = some (s.data[idx / 64]) := List.getElem?_eq_getElem h
  simp only [hw, Option.getD_some]
  rw [and_two_pow_bne]

theorem get_none_of_ge (s : AtomicBitVec) (idx : Nat) (h : s.data.length ≤ idx / 64) :
    s.get idx = none := by
  unfold get loc_and_mask
  rw [shiftRight_six]
  have : s.data[idx / 64]? = none := List.getElem?_eq_none h
  simp [this]

theorem testBit_unset_mask (k m : Nat) (hk : k < 64) :
    ((2 : Nat) ^ k ^^^ (2 ^ 64 - 1)).testBit m =
      (decide (m < 64) && !(decide (k = m))) := by
  rw [Nat.testBit_xor, Nat.testBit_two_pow, Nat.testBit_two_pow_sub_one]
  by_cases h : k = m
  · subst h
    simp [hk]
  · by_cases hm : m < 64 <;> simp [h, hm]

/-- Characterisation of a successful `set`: the returned flag is the previous
bit, the new state has the written bit at `idx`, all other bit positions are
untouched, and the block structure is preserved. -/
theorem set_spec (s : AtomicBitVec) (idx : Nat) (v : Bool) (h : idx / 64 < s.data.length) :
    ∃ s' : AtomicBitVec,
      s.set idx v = some (s.bitAt idx, s') ∧
      s'.data.length = s.data.length ∧
      s'.bitAt idx = v ∧
      (∀ j : Nat, j ≠ idx → s'.bitAt j = s.bitAt j) := by
  unfold set loc_and_mask
  rw [shiftRight_six, and_63, one_shiftLeft]
  have hw : s.data[idx / 64]? = some (s.data[idx / 64]) := List.getElem?_eq_getElem h
  set w := s.data[idx / 64] with hwdef
  have hprev : (w &&& 2 ^ (idx % 64) != 0) = s.bitAt idx := by
    rw [and_two_pow_bne]
    unfold bitAt
    simp [hw]
  have hmod : idx % 64 < 64 := Nat.mod_lt _ (by norm_num)
  have hsplit : ∀ j : Nat, j ≠ idx → j / 64 = idx / 64 → j % 64 ≠ idx % 64 := by
    intro j hj hdiv hmm
    exact hj (by rw [← Nat.div_add_mod j 64, ← Nat.div_add_mod idx 64, hdiv, hmm])
  cases v with
  | true =>
    refine ⟨⟨s.data.set (idx / 64) (w ||| 2 ^ (idx % 64))⟩, ?_, by simp, ?_, ?_⟩
    · simp [hw, hprev]
    · unfold bitAt
      simp only [List.getElem?_set_self h, Option.getD_some]
      rw [Nat.testBit_lor, Nat.testBit_two_pow_self, Bool.or_true]
    · intro j hj
      unfold bitAt
      by_cases hdiv : j / 64 = idx / 64
      · rw [hdiv]
        simp only [List.getElem?_set_self h, Option.getD_some, hw, Option.getD_some]
        rw [Nat.testBit_lor, Nat.testBit_two_pow_of_ne (Ne.symm (hsplit j hj hdiv)),
          Bool.or_false]
      · simp [List.getElem?_set_ne (fun he => hdiv he.symm)]
  | false =>
    refine ⟨⟨s.data.set (idx / 64) (w &&& (2 ^ (idx % 64) ^^^ (2 ^ 64 - 1)))⟩, ?_, by simp, ?_, ?_⟩
    · simp [hw, hprev]
    · unfold bitAt
      simp only [List.getElem?_set_self h, Option.getD_some]
      rw [Nat.testBit_land, testBit_unset_mask _ _ hmod]
      simp
    · intro j hj
      unfold bitAt
      by_cases hdiv : j / 64 = idx / 64
      · rw [hdiv]
        simp only [List.getElem?_set_self h, Option.getD_some, hw, Option.getD_some]
        rw [Nat.testBit_land, testBit_unset_mask _ _ hmod]
        have hne : ¬ (idx % 64 = j % 64) := fun he => hsplit j hj hdiv he.symm
        have hjm : j % 64 < 64 := Nat.mod_lt _ (by norm_num)
        simp [hne, hjm]
      · simp [List.getElem?_set_ne (fun he => hdiv he.symm)]

theorem set_none_of_ge (s : AtomicBitVec) (idx : Nat) (v : Bool)
    (h : s.data.length ≤ idx / 64) : s.set idx v = none := by
  unfold set loc_and_mask
  rw [shiftRight_six]
  have : s.data[idx / 64]? = none := List.getElem?_eq_none h
  simp [this]

end AtomicBitVec

namespace AtomicBitVec

theorem testBit_mask_64_6 (i : Nat) :
    ((2 : Nat) ^ 64 - 64).testBit i = (decide (6 ≤ i) && decide (i < 64)) := by
  have hM : ((2 : Nat) ^ 64 - 64) = 2 ^ 6 * (2 ^ 58 - 1) := by norm_num
  rw [hM, Nat.testBit_mul_pow_two, Nat.testBit_two_pow_sub_one]
  by_cases h6 : 6 ≤ i
  · by_cases h64 : i < 64 <;> simp [h6, h64] <;> omega
  · simp [h6]

theorem and_mask_eq_div_mul (x : Nat) (hx : x < 2 ^ 64) :
    x &&& (2 ^ 64 - 64) = x / 64 * 64 := by
  have hdm : x / 64 * 64 = 2 ^ 6 * (x >>> 6) := by
    rw [Nat.shiftRight_eq_div_pow]
    norm_num
    ring
  apply Nat.eq_of_testBit_eq
  intro i
  rw [Nat.testBit_land, testBit_mask_64_6, hdm, Nat.testBit_mul_pow_two,
    Nat.testBit_shiftRight]
  by_cases h6 : 6 ≤ i
  · by_cases h64 : i < 64
    · have : 6 + (i - 6) = i := by omega
      simp [h6, h64, this]
    · have hxi : x.testBit i = false :=
        Nat.testBit_lt_two_pow (lt_of_lt_of_le hx (Nat.pow_le_pow_right (by norm_num) (by omega)))
      have hxi' : x.testBit (6 + (i - 6)) = false := by
        have : 6 + (i - 6) = i := by omega
        rw [this, hxi]
      simp [h6, h64, hxi, hxi']
  · simp [h6]

theorem next_mul_64_eq (v : Nat) (hv : v + 64 < 2 ^ 64) :
    next_mul_64 v = (v / 64 + 1) * 64 := by
  unfold next_mul_64
  rw [and_mask_eq_div_mul _ hv, Nat.add_div_right _ (by norm_num : 0 < 64)]

theorem next_mul_64_mod_64 (v : Nat) : next_mul_64 v % 64 = 0 := by
  have h : next_mul_64 v &&& (2 ^ 6 - 1) = 0 := by
    apply Nat.eq_of_testBit_eq
    intro i
    unfold next_mul_64
    rw [Nat.testBit_land, Nat.testBit_land, Nat.testBit_two_pow_sub_one,
      testBit_mask_64_6, Nat.zero_testBit]
    by_cases h6 : 6 ≤ i
    · simp [h6]
    · simp [h6]
  have h' := Nat.and_pow_two_sub_one_eq_mod (next_mul_64 v) 6
  rw [h] at h'
  have : (2 : Nat) ^ 6 = 64 := by norm_num
  rw [this] at h'
  exact h'.symm

theorem next_mul_64_div_mul (v : Nat) : next_mul_64 v / 64 * 64 = next_mul_64 v :=
  Nat.div_mul_cancel (Nat.dvd_of_mod_eq_zero (next_mul_64_mod_64 v))

theorem resize_blocks_with_length (s : AtomicBitVec) (n : Nat) (f : Nat → Nat) :
    (s.resize_blocks_with n f).data.length = n := by
  unfold resize_blocks_with
  by_cases h : n ≤ s.data.length
  · simp [h, Nat.min_eq_left h]
  · simp [h]
    omega

theorem resize_bits_with_length (s : AtomicBitVec) (n : Nat) (f : Nat → Nat) :
    (s.resize_bits_with n f).data.length = next_mul_64 n / 64 := by
  unfold resize_bits_with
  exact resize_blocks_with_length s _ f

theorem len_resize_bits_with (s : AtomicBitVec) (n : Nat) (f : Nat → Nat) :
    (s.resize_bits_with n f).len = next_mul_64 n := by
  unfold len block_cnt
  rw [resize_bits_with_length, next_mul_64_div_mul]

theorem len_mod_64 (s : AtomicBitVec) : s.len % 64 = 0 := by
  unfold len
  exact Nat.mul_mod_left _ _

/-- C6: for every AtomicBitVec and every in-bounds index, `set(i, v)` returns
the value the bit had before the call (the same value `get(i)` returned), and
a subsequent `get(i)` on the updated state returns v. -/
theorem claim_C6_set_get_roundtrip (s : AtomicBitVec) (idx : Nat) (v : Bool)
    (h : idx < s.len) :
    ∃ (prev : Bool) (s' : AtomicBitVec),
      s.set idx v = some (prev, s') ∧
      s.get idx = some prev ∧
      s'.get idx = some v := by
  have hdiv : idx / 64 < s.data.length := (lt_len_iff s idx).mp h
  obtain ⟨s', hset, hlen, hbit, _⟩ := set_spec s idx v hdiv
  refine ⟨s.bitAt idx, s', hset, get_eq_bitAt s idx hdiv, ?_⟩
  rw [get_eq_bitAt s' idx (by rw [hlen]; exact hdiv), hbit]

theorem claim_C6_witness :
    (3 < (AtomicBitVec.mk [0]).len) ∧
    (∃ (prev : Bool) (s' : AtomicBitVec),
      (AtomicBitVec.mk [0]).set 3 true = some (prev, s') ∧
      (AtomicBitVec.mk [0]).get 3 = some prev ∧
      s'.get 3 = some true) :=
  ⟨by decide, claim_C6_set_get_roundtrip (AtomicBitVec.mk [0]) 3 true (by decide)⟩

/-- C7 counterexample: at the usize boundary the claim fails.  Requesting
2^64 - 1 bits makes `next_mul_64` wrap (in 64-bit release semantics
`(v + 64) & !63` evaluates to 0), so the resized bit set has length 0, which
is smaller than the requested capacity. -/
theorem claim_C7_counterexample :
    ((with_bit_capacity (2 ^ 64 - 1)).resize_bits_with (2 ^ 64 - 1)
        (fun _ => 0)).len = 0 ∧
    ¬ (2 ^ 64 - 1 ≤
        ((with_bit_capacity (2 ^ 64 - 1)).resize_bits_with (2 ^ 64 - 1)
          (fun _ => 0)).len) := by
  constructor
  · decide
  · decide

/-- C7 (amended): for every requested bit capacity c with c + 64 < 2^64 (all
capacities that do not overflow the rounding computation), the bit set built
by `with_bit_capacity(c)` followed by `resize_bits_with(c, ..)` has a length
that is a multiple of 64 and at least c; moreover the length of any bit set
is a multiple of 64 after every `resize_blocks_with` or `resize_bits_with`,
with no bound on the argument. -/
theorem claim_C7_amended :
    (∀ (c : Nat) (f : Nat → Nat), c + 64 < 2 ^ 64 →
      ((with_bit_capacity c).resize_bits_with c f).len % 64 = 0 ∧
      c ≤ ((with_bit_capacity c).resize_bits_with c f).len) ∧
    (∀ (s : AtomicBitVec) (n : Nat) (g : Nat → Nat),
      (s.resize_blocks_with n g).len % 64 = 0 ∧
      (s.resize_bits_with n g).len % 64 = 0) := by
  constructor
  · intro c f hc
    refine ⟨len_mod_64 _, ?_⟩
    rw [len_resize_bits_with, next_mul_64_eq c hc]
    have := Nat.div_add_mod c 64
    have := Nat.mod_lt c (show 0 < 64 by norm_num)
    omega
  · intro s n g
    exact ⟨len_mod_64 _, len_mod_64 _⟩

theorem claim_C7_amended_witness :
    (100 + 64 < 2 ^ 64) ∧
    (((with_bit_capacity 100).resize_bits_with 100 (fun _ => 0)).len % 64 = 0 ∧
      100 ≤ ((with_bit_capacity 100).resize_bits_with 100 (fun _ => 0)).len) :=
  ⟨by decide, claim_C7_amended.1 100 (fun _ => 0) (by decide)⟩

/-- C9: for every requested bit count n, `with_bit_capacity(n)` followed by
`resize_bits_with(n, ..)` yields a length equal to `(n + 64) & !63`; when
n + 64 does not overflow and n is a multiple of 64, the length is exactly
n + 64, strictly greater than n (an extra 64-bit block beyond the exact
multiple).  In particular n = 64 gives length 128. -/
theorem claim_C9_extra_block (n : Nat) (f : Nat → Nat) :
    ((with_bit_capacity n).resize_bits_with n f).len = (n + 64) &&& (2 ^ 64 - 64) ∧
    (n + 64 < 2 ^ 64 → 64 ∣ n →
      ((with_bit_capacity n).resize_bits_with n f).len = n + 64 ∧
      n < ((with_bit_capacity n).resize_bits_with n f).len) := by
  constructor
  · rw [len_resize_bits_with]
    rfl
  · intro hn hdvd
    rw [len_resize_bits_with, next_mul_64_eq n hn]
    have heq : n / 64 * 64 = n := Nat.div_mul_cancel hdvd
    constructor <;> omega

theorem claim_C9_witness :
    ((with_bit_capacity 64).resize_bits_with 64 (fun _ => 0)).len =
        (64 + 64) &&& (2 ^ 64 - 64) ∧
    (64 + 64 < 2 ^ 64 ∧ 64 ∣ 64) ∧
    ((with_bit_capacity 64).resize_bits_with 64 (fun _ => 0)).len = 128 :=
  ⟨(claim_C9_extra_block 64 (fun _ => 0)).1, ⟨by decide, by decide⟩,
    ((claim_C9_extra_block 64 (fun _ => 0)).2 (by decide) (by decide)).1⟩

/-- C10: setting one in-bounds bit leaves every other in-bounds bit unchanged:
`get(j)` returns the same value before and after `set(i, v)` for j distinct
from i. -/
theorem claim_C10_set_frame (s : AtomicBitVec) (i j : Nat) (v : Bool)
    (hi : i < s.len) (hj : j < s.len) (hij : i ≠ j) :
    ∃ (prev : Bool) (s' : AtomicBitVec),
      s.set i v = some (prev, s') ∧
      s'.get j = s.get j := by
  have hdi : i / 64 < s.data.length := (lt_len_iff s i).mp hi
  have hdj : j / 64 < s.data.length := (lt_len_iff s j).mp hj
  obtain ⟨s', hset, hlen, _, hframe⟩ := set_spec s i v hdi
  refine ⟨s.bitAt i, s', hset, ?_⟩
  rw [get_eq_bitAt s' j (by rw [hlen]; exact hdj), get_eq_bitAt s j hdj,
    hframe j (fun he => hij he.symm)]

theorem claim_C10_witness :
    (0 < (AtomicBitVec.mk [5]).len ∧ 2 < (AtomicBitVec.mk [5]).len ∧ 0 ≠ 2) ∧
    (∃ (prev : Bool) (s' : AtomicBitVec),
      (AtomicBitVec.mk [5]).set 0 true = some (prev, s') ∧
      s'.get 2 = (AtomicBitVec.mk [5]).get 2) :=
  ⟨⟨by decide, by decide, by decide⟩,
    claim_C10_set_frame (AtomicBitVec.mk [5]) 0 2 true (by decide) (by decide)
      (by decide)⟩

end AtomicBitVec

namespace Algorithm

theorem sumsToTarget_nil (t : Int) : sumsToTarget [] t ↔ t = 0 := by
  constructor
  · rintro ⟨sub, hs, he⟩
    rw [List.sublist_nil.mp hs] at he
    simpa using he.symm
  · rintro rfl
    exact ⟨[], List.Sublist.refl _, rfl⟩

theorem sumsToTarget_zero (l : List Int) : sumsToTarget l 0 :=
  ⟨[], List.nil_sublist _, rfl⟩

theorem sumsToTarget_append_singleton (l : List Int) (e t : Int) :
    sumsToTarget (l ++ [e]) t ↔ sumsToTarget l t ∨ sumsToTarget l (t - e) := by
  constructor
  · rintro ⟨sub, hs, he⟩
    obtain ⟨l₁, l₂, rfl, h₁, h₂⟩ := List.sublist_append_iff.mp hs
    rcases List.sublist_singleton.mp h₂ with rfl | rfl
    · left
      exact ⟨l₁, h₁, by simpa using he⟩
    · right
      refine ⟨l₁, h₁, ?_⟩
      have : l₁.sum + e = t := by simpa using he
      omega
  · rintro (⟨sub, hs, he⟩ | ⟨sub, hs, he⟩)
    · exact ⟨sub, hs.trans (List.sublist_append_left _ _), he⟩
    · refine ⟨sub ++ [e], List.Sublist.append hs (List.Sublist.refl _), ?_⟩
      simp [he]

theorem most_negative_cons (x : Int) (l : List Int) :
    most_negative (x :: l) =
      (if x < 0 then (-x).toNat else 0) + most_negative l := by
  unfold most_negative
  by_cases h : x < 0 <;> simp [List.filter_cons, h]

theorem most_positive_cons (x : Int) (l : List Int) :
    most_positive (x :: l) =
      (if 0 < x then x.toNat else 0) + most_positive l := by
  unfold most_positive
  by_cases h : 0 < x <;> simp [List.filter_cons, h]

theorem most_negative_le_cons (x : Int) (l : List Int) :
    most_negative l ≤ most_negative (x :: l) := by
  rw [most_negative_cons]
  exact Nat.le_add_left _ _

theorem most_positive_le_cons (x : Int) (l : List Int) :
    most_positive l ≤ most_positive (x :: l) := by
  rw [most_positive_cons]
  exact Nat.le_add_left _ _

theorem sublist_sum_bounds :
    ∀ {sub l : List Int}, sub.Sublist l →
      -(most_negative l : Int) ≤ sub.sum ∧ sub.sum ≤ (most_positive l : Int) := by
  intro sub l h
  induction h with
  | slnil => simp [most_negative, most_positive]
  | cons a h ih =>
    rename_i l₁ l₂
    have hmn := most_negative_le_cons a l₂
    have hmp := most_positive_le_cons a l₂
    have h1 := ih.1
    have h2 := ih.2
    constructor
    · refine le_trans ?_ h1
      have : (most_negative l₂ : Int) ≤ (most_negative (a :: l₂) : Int) :=
        Nat.cast_le.mpr hmn
      omega
    · refine le_trans h2 ?_
      exact_mod_cast hmp
  | cons₂ a h ih =>
    rename_i l₁ l₂
    rw [List.sum_cons]
    have h1 := ih.1
    have h2 := ih.2
    constructor
    · by_cases ha : a < 0
      · have hmn : (most_negative (a :: l₂) : Int) = -a + (most_negative l₂ : Int) := by
          rw [most_negative_cons, if_pos ha]
          push_cast [Int.toNat_of_nonneg (show (0 : Int) ≤ -a by omega)]
          ring
        rw [hmn]
        omega
      · have hmn : most_negative (a :: l₂) = most_negative l₂ := by
          rw [most_negative_cons, if_neg ha, Nat.zero_add]
        rw [hmn]
        omega
    · by_cases ha : 0 < a
      · have hmp : (most_positive (a :: l₂) : Int) = a + (most_positive l₂ : Int) := by
          rw [most_positive_cons, if_pos ha]
          push_cast [Int.toNat_of_nonneg (show (0 : Int) ≤ a by omega)]
          ring
        rw [hmp]
        omega
      · have hmp : most_positive (a :: l₂) = most_positive l₂ := by
          rw [most_positive_cons, if_neg ha, Nat.zero_add]
        rw [hmp]
        omega

theorem sumsToTarget_bounds {l : List Int} {t : Int} (h : sumsToTarget l t) :
    -(most_negative l : Int) ≤ t ∧ t ≤ (most_positive l : Int) := by
  obtain ⟨sub, hs, rfl⟩ := h
  exact sublist_sum_bounds hs

theorem zero_index_lt_sum_size (entries : List Int) :
    zero_index entries < sum_size entries := by
  unfold zero_index sum_size
  omega

theorem usizeOfInt_of_nonneg (x : Int) (h0 : 0 ≤ x) (h1 : x < 2 ^ 64) :
    usizeOfInt x = x.toNat := by
  unfold usizeOfInt
  rw [Int.emod_eq_of_lt h0 (by exact_mod_cast h1)]

theorem usizeOfInt_of_neg (x : Int) (h0 : x < 0) (h1 : -(2 ^ 64) ≤ x) :
    usizeOfInt x = (x + 2 ^ 64).toNat := by
  unfold usizeOfInt
  have : x % (2 ^ 64 : Int) = x + 2 ^ 64 := by omega
  rw [this]

theorem isizeOfUsize_of_lt (n : Nat) (h : n < 2 ^ 63) : isizeOfUsize n = (n : Int) := by
  unfold isizeOfUsize
  rw [if_pos h]

theorem create_row_data (ss : Nat) :
    (create_row ss).data = List.replicate (AtomicBitVec.next_mul_64 ss / 64) 0 := by
  unfold create_row AtomicBitVec.resize_bits_with AtomicBitVec.resize_blocks_with
    AtomicBitVec.with_bit_capacity AtomicBitVec.with_capacity
  by_cases h : AtomicBitVec.next_mul_64 ss / 64 ≤ ([] : List Nat).length
  · simp only [List.length_nil, Nat.le_zero] at h
    simp [h]
  · simp only [if_neg h, List.nil_append]
    rw [show (fun _ : Nat => 0) = Function.const Nat 0 from rfl, List.map_const,
      List.length_range]
    simp

theorem create_row_bitAt (ss b : Nat) : (create_row ss).bitAt b = false := by
  unfold AtomicBitVec.bitAt
  rw [create_row_data]
  cases hq : (List.replicate (AtomicBitVec.next_mul_64 ss / 64) 0)[b / 64]? with
  | none => simp
  | some w =>
    have := List.eq_of_mem_replicate (List.getElem?_mem hq)
    simp [this]

theorem create_row_length (ss : Nat) (h : ss + 64 < 2 ^ 64) :
    (create_row ss).data.length = ss / 64 + 1 := by
  unfold create_row
  rw [AtomicBitVec.resize_bits_with_length, AtomicBitVec.next_mul_64_eq ss h]
  omega

theorem set_true_spec (s : AtomicBitVec) (idx : Nat) (h : idx / 64 < s.data.length) :
    ∃ s', set_true s idx = some s' ∧ s'.data.length = s.data.length ∧
      s'.bitAt idx = true ∧ ∀ j : Nat, j ≠ idx → s'.bitAt j = s.bitAt j := by
  obtain ⟨s', hset, hlen, hbit, hframe⟩ := AtomicBitVec.set_spec s idx true h
  exact ⟨s', by rw [set_true, hset]; rfl, hlen, hbit, hframe⟩

theorem sweep_fold_spec (test : Nat → Option Bool) (tb : Nat → Bool) :
    ∀ (js : List Nat) (row : AtomicBitVec),
      (∀ j ∈ js, j / 64 < row.data.length) →
      (∀ j ∈ js, test j = some (tb j)) →
      ∃ row',
        js.foldl
          (fun acc j => do
            let r ← acc
            let b ← test j
            if b then set_true r j else pure r)
          (some row) = some row' ∧
        row'.data.length = row.data.length ∧
        ∀ b : Nat, row'.bitAt b = (row.bitAt b || (decide (b ∈ js) && tb b)) := by
  intro js
  induction js with
  | nil =>
    intro row _ _
    exact ⟨row, rfl, rfl, by simp⟩
  | cons j rest ih =>
    intro row hin htest
    have hj : j / 64 < row.data.length := hin j (List.mem_cons_self j rest)
    have htj : test j = some (tb j) := htest j (List.mem_cons_self j rest)
    rw [List.foldl_cons]
    cases htb : tb j with
    | false =>
      have hstep :
          (do
            let r ← some row
            let b ← test j
            if b then set_true r j else pure r) = some row := by
        rw [htj, htb]
        rfl
      rw [hstep]
      obtain ⟨row', heq, hlen, hbits⟩ := ih row
        (fun x hx => hin x (List.mem_cons_of_mem j hx))
        (fun x hx => htest x (List.mem_cons_of_mem j hx))
      refine ⟨row', heq, hlen, fun b => ?_⟩
      rw [hbits b]
      by_cases hbj : b = j
      · subst hbj
        simp [htb]
      · simp [hbj]
    | true =>
      obtain ⟨row₁, hset, hlen₁, hbit₁, hframe₁⟩ := set_true_spec row j hj
      have hstep :
          (do
            let r ← some row
            let b ← test j
            if b then set_true r j else pure r) = some row₁ := by
        rw [htj, htb]
        simpa using hset
      rw [hstep]
      obtain ⟨row', heq, hlen, hbits⟩ := ih row₁
        (fun x hx => by rw [hlen₁]; exact hin x (List.mem_cons_of_mem j hx))
        (fun x hx => htest x (List.mem_cons_of_mem j hx))
      refine ⟨row', heq, by rw [hlen, hlen₁], fun b => ?_⟩
      rw [hbits b]
      by_cases hbj : b = j
      · subst hbj
        simp [hbit₁, htb]
      · rw [hframe₁ b hbj]
        simp [hbj]

theorem sweep_spec (test : Nat → Option Bool) (tb : Nat → Bool) (ss : Nat)
    (row : AtomicBitVec)
    (hin : ∀ j : Nat, j < ss → j / 64 < row.data.length)
    (htest : ∀ j : Nat, j < ss → test j = some (tb j)) :
    ∃ row', sweep test ss row = some row' ∧
      row'.data.length = row.data.length ∧
      ∀ b : Nat, row'.bitAt b = (row.bitAt b || (decide (b < ss) && tb b)) := by
  obtain ⟨row', heq, hlen, hbits⟩ := sweep_fold_spec test tb (List.range ss) row
    (fun j hj => hin j (List.mem_range.mp hj))
    (fun j hj => htest j (List.mem_range.mp hj))
  refine ⟨row', heq, hlen, fun b => ?_⟩
  rw [hbits b]
  by_cases hb : b < ss <;> simp [hb, List.mem_range]

end Algorithm

namespace Algorithm

theorem div64_lt (j ss : Nat) (h : j < ss) : j / 64 < ss / 64 + 1 :=
  lt_of_le_of_lt (Nat.div_le_div_right (le_of_lt h)) (Nat.lt_succ_self _)

theorem sumsToTarget_singleton (e t : Int) :
    sumsToTarget [e] t ↔ t = 0 ∨ t = e := by
  have h := sumsToTarget_append_singleton [] e t
  rw [List.nil_append] at h
  rw [h, sumsToTarget_nil, sumsToTarget_nil]
  omega

theorem sumsToTarget_bounds_of_sublist {pre entries : List Int} {t : Int}
    (hpre : pre.Sublist entries) (h : sumsToTarget pre t) :
    -(most_negative entries : Int) ≤ t ∧ t ≤ (most_positive entries : Int) := by
  obtain ⟨sub, hs, rfl⟩ := h
  exact sublist_sum_bounds (hs.trans hpre)

theorem row_after_zero (ss zi : Nat) (h64 : ss + 64 < 2 ^ 64) (hzi : zi < ss) :
    ∃ r1, set_true (create_row ss) zi = some r1 ∧
      r1.data.length = ss / 64 + 1 ∧
      ∀ b : Nat, r1.bitAt b = decide (b = zi) := by
  have hL := create_row_length ss h64
  have hdz : zi / 64 < (create_row ss).data.length := by
    rw [hL]
    exact div64_lt zi ss hzi
  obtain ⟨r1, hset, hlen, hbit, hframe⟩ := set_true_spec _ zi hdz
  refine ⟨r1, hset, by rw [hlen, hL], fun b => ?_⟩
  by_cases hb : b = zi
  · subst hb
    simp [hbit]
  · rw [hframe b hb, create_row_bitAt]
    simp [hb]

theorem carry_test_eq (entries pre : List Int) (prev : AtomicBitVec)
    (hprev : RowInv prev (sum_size entries) (zero_index entries) pre)
    (j : Nat) (hj : j < sum_size entries) :
    carry_test prev j =
      some (decide (sumsToTarget pre ((j : Int) - (zero_index entries : Int)))) := by
  obtain ⟨hL, hbits, hpad⟩ := hprev
  rw [carry_test, load,
    AtomicBitVec.get_eq_bitAt _ _ (by rw [hL]; exact div64_lt j _ hj), hbits j hj]

theorem shift_test_eq (entries pre : List Int) (prev : AtomicBitVec) (e : Int)
    (hss : sum_size entries ≤ 2 ^ 63)
    (hpre : pre.Sublist entries)
    (hprev : RowInv prev (sum_size entries) (zero_index entries) pre)
    (j : Nat) (hj : j < sum_size entries) :
    shift_test prev e (sum_size entries) j =
      some (decide (sumsToTarget pre ((j : Int) - (zero_index entries : Int) - e))) := by
  obtain ⟨hL, hbits, hpad⟩ := hprev
  have hjz : isizeOfUsize j = (j : Int) := isizeOfUsize_of_lt j (by omega)
  have hzieq : zero_index entries = most_negative entries := rfl
  have hzimp : (zero_index entries : Int) + (most_positive entries : Int) + 1 =
      (sum_size entries : Int) := by
    unfold zero_index sum_size
    push_cast
    ring
  simp only [shift_test, hjz]
  split_ifs with h1 h2
  · have hns : ¬ sumsToTarget pre ((j : Int) - (zero_index entries : Int) - e) := by
      intro hS
      have hb := (sumsToTarget_bounds_of_sublist hpre hS).1
      omega
    simp [hns]
  · rw [decide_eq_true_eq] at h2
    have htn : (((↑j - e : Int).toNat : Int)) = (↑j - e : Int) :=
      Int.toNat_of_nonneg (by omega)
    have hns : ¬ sumsToTarget pre ((j : Int) - (zero_index entries : Int) - e) := by
      intro hS
      have hb := (sumsToTarget_bounds_of_sublist hpre hS).2
      omega
    simp [hns]
  · rw [decide_eq_true_eq, not_le] at h2
    have htn : (((↑j - e : Int).toNat : Int)) = (↑j - e : Int) :=
      Int.toNat_of_nonneg (by omega)
    rw [load, AtomicBitVec.get_eq_bitAt _ _ (by rw [hL]; exact div64_lt _ _ h2),
      hbits _ h2]
    have harg : ((((↑j - e : Int).toNat : Nat) : Int) - (zero_index entries : Int)) =
        (j : Int) - (zero_index entries : Int) - e := by
      rw [htn]
      ring
    rw [harg]

end Algorithm

namespace Algorithm

theorem build_row_none_spec (entries : List Int) (e : Int)
    (hss : sum_size entries ≤ 2 ^ 63)
    (he : [e].Sublist entries) :
    ∃ r, build_row none e (zero_index entries) (sum_size entries) = some r ∧
      RowInv r (sum_size entries) (zero_index entries) [e] := by
  have h64 : sum_size entries + 64 < 2 ^ 64 := by omega
  have hzi : zero_index entries < sum_size entries := zero_index_lt_sum_size entries
  obtain ⟨r1, hset1, hlen1, hbits1⟩ := row_after_zero _ _ h64 hzi
  have heb := sublist_sum_bounds he
  rw [List.sum_cons, List.sum_nil, add_zero] at heb
  have hzieq : zero_index entries = most_negative entries := rfl
  have hzimp : (zero_index entries : Int) + (most_positive entries : Int) + 1 =
      (sum_size entries : Int) := by
    unfold zero_index sum_size
    push_cast
    ring
  have hE0 : (0 : Int) ≤ (zero_index entries : Int) + e := by omega
  have hcast : usizeOfInt (isizeOfUsize (zero_index entries) + e) =
      ((zero_index entries : Int) + e).toNat := by
    rw [isizeOfUsize_of_lt _ (by omega), usizeOfInt_of_nonneg _ hE0 (by omega)]
  have hidxlt : ((zero_index entries : Int) + e).toNat < sum_size entries := by omega
  obtain ⟨r2, hset2, hlen2, hbit2, hframe2⟩ :=
    set_true_spec r1 ((zero_index entries : Int) + e).toNat
      (by rw [hlen1]; exact div64_lt _ _ hidxlt)
  refine ⟨r2, ?_, ?_, ?_, ?_⟩
  · rw [build_row, hset1]
    show set_true r1 (usizeOfInt (isizeOfUsize (zero_index entries) + e)) = some r2
    rw [hcast, hset2]
  · rw [hlen2, hlen1]
  · intro b hb
    by_cases hbE : b = ((zero_index entries : Int) + e).toNat
    · subst hbE
      rw [hbit2]
      have hS : sumsToTarget [e]
          (((((zero_index entries : Int) + e).toNat : Nat) : Int) -
            (zero_index entries : Int)) :=
        (sumsToTarget_singleton e _).mpr (Or.inr (by omega))
      exact (decide_eq_true hS).symm
    · rw [hframe2 b hbE, hbits1 b]
      by_cases hbz : b = zero_index entries
      · subst hbz
        have hS : sumsToTarget [e]
            ((zero_index entries : Int) - (zero_index entries : Int)) :=
          (sumsToTarget_singleton e _).mpr (Or.inl (by ring))
        rw [decide_eq_true hS]
        simp
      · have hns : ¬ sumsToTarget [e] ((b : Int) - (zero_index entries : Int)) := by
          rw [sumsToTarget_singleton]
          omega
        rw [decide_eq_false hns]
        simp [hbz]
  · intro b hb
    have hbE : b ≠ ((zero_index entries : Int) + e).toNat := by omega
    have hbz : b ≠ zero_index entries := by omega
    rw [hframe2 b hbE, hbits1 b]
    simp [hbz]

theorem build_row_some_spec (entries pre : List Int) (e : Int)
    (hss : sum_size entries ≤ 2 ^ 63)
    (hpre : (pre ++ [e]).Sublist entries)
    (prev : AtomicBitVec)
    (hprev : RowInv prev (sum_size entries) (zero_index entries) pre) :
    ∃ r, build_row (some prev) e (zero_index entries) (sum_size entries) = some r ∧
      RowInv r (sum_size entries) (zero_index entries) (pre ++ [e]) := by
  have h64 : sum_size entries + 64 < 2 ^ 64 := by omega
  have hzi : zero_index entries < sum_size entries := zero_index_lt_sum_size entries
  have hpre' : pre.Sublist entries := (List.sublist_append_left pre [e]).trans hpre
  obtain ⟨r1, hset1, hlen1, hbits1⟩ := row_after_zero _ _ h64 hzi
  obtain ⟨r2, hsw1, hlen2, hbits2⟩ := sweep_spec (carry_test prev)
    (fun j => decide (sumsToTarget pre ((j : Int) - (zero_index entries : Int))))
    (sum_size entries) r1
    (fun j hj => by rw [hlen1]; exact div64_lt _ _ hj)
    (fun j hj => carry_test_eq entries pre prev hprev j hj)
  obtain ⟨r3, hsw2, hlen3, hbits3⟩ := sweep_spec
    (shift_test prev e (sum_size entries))
    (fun j => decide (sumsToTarget pre ((j : Int) - (zero_index entries : Int) - e)))
    (sum_size entries) r2
    (fun j hj => by rw [hlen2, hlen1]; exact div64_lt _ _ hj)
    (fun j hj => shift_test_eq entries pre prev e hss hpre' hprev j hj)
  refine ⟨r3, ?_, ?_, ?_, ?_⟩
  · rw [build_row, hset1]
    show (do
      let r ← sweep (carry_test prev) (sum_size entries) r1
      sweep (shift_test prev e (sum_size entries)) (sum_size entries) r) = some r3
    rw [hsw1]
    show sweep (shift_test prev e (sum_size entries)) (sum_size entries) r2 = some r3
    exact hsw2
  · rw [hlen3, hlen2, hlen1]
  · intro b hb
    rw [hbits3, hbits2, hbits1]
    have hiff : sumsToTarget (pre ++ [e]) ((b : Int) - (zero_index entries : Int)) ↔
        sumsToTarget pre ((b : Int) - (zero_index entries : Int)) ∨
          sumsToTarget pre ((b : Int) - (zero_index entries : Int) - e) :=
      sumsToTarget_append_singleton pre e _
    rw [decide_eq_decide.mpr hiff, Bool.decide_or]
    rw [decide_eq_true hb]
    simp only [Bool.true_and]
    by_cases hbz : b = zero_index entries
    · subst hbz
      have hS : sumsToTarget pre
          ((zero_index entries : Int) - (zero_index entries : Int)) := by
        have harg : ((zero_index entries : Int) - (zero_index entries : Int)) = 0 := by
          ring
        rw [harg]
        exact sumsToTarget_zero pre
      rw [decide_eq_true hS]
      simp
    · rw [decide_eq_false hbz]
      simp [Bool.or_assoc]
  · intro b hb
    rw [hbits3, hbits2, hbits1]
    have hblt : ¬ (b < sum_size entries) := by omega
    have hbz : b ≠ zero_index entries := by omega
    simp [hblt, hbz]

end Algorithm

namespace Algorithm

theorem build_rows_spec (entries : List Int) (hss : sum_size entries ≤ 2 ^ 63) :
    ∀ (todo pre : List Int) (prevOpt : Option AtomicBitVec) (i : Nat),
      pre ++ todo = entries →
      ((pre = [] ∧ prevOpt = none) ∨
        (∃ prev, prevOpt = some prev ∧
          RowInv prev (sum_size entries) (zero_index entries) pre)) →
      ∃ rows,
        build_rows (zero_index entries) (sum_size entries) prevOpt i todo =
          (List.range' i todo.length, some rows) ∧
        rows.length = todo.length ∧
        ∀ k : Nat, k < todo.length →
          ∃ row, rows[k]? = some row ∧
            RowInv row (sum_size entries) (zero_index entries)
              (pre ++ todo.take (k + 1)) := by
  intro todo
  induction todo with
  | nil =>
    intro pre prevOpt i hpt hprev
    exact ⟨[], rfl, rfl, fun k hk => absurd hk (by simp)⟩
  | cons e rest ih =>
    intro pre prevOpt i hpt hprev
    have hrow : ∃ r,
        build_row prevOpt e (zero_index entries) (sum_size entries) = some r ∧
        RowInv r (sum_size entries) (zero_index entries) (pre ++ [e]) := by
      rcases hprev with ⟨hpe, hpo⟩ | ⟨prev, hpo, hinv⟩
      · subst hpe
        subst hpo
        have he : [e].Sublist entries := by
          rw [← hpt]
          simp
        obtain ⟨r, hr, hinv⟩ := build_row_none_spec entries e hss he
        exact ⟨r, hr, by simpa using hinv⟩
      · subst hpo
        have hpe : (pre ++ [e]).Sublist entries := by
          rw [← hpt, show pre ++ e :: rest = (pre ++ [e]) ++ rest by simp]
          exact List.sublist_append_left _ _
        exact build_row_some_spec entries pre e hss hpe prev hinv
    obtain ⟨r, hr, hinv⟩ := hrow
    have hpt' : (pre ++ [e]) ++ rest = entries := by
      rw [← hpt]
      simp
    obtain ⟨rows', hbr, hlen', hrows'⟩ := ih (pre ++ [e]) (some r) (i + 1) hpt'
      (Or.inr ⟨r, rfl, hinv⟩)
    refine ⟨r :: rows', ?_, by simp [hlen'], ?_⟩
    · simp [build_rows, hr, hbr, List.range'_succ]
    · intro k hk
      cases k with
      | zero =>
        refine ⟨r, by simp, ?_⟩
        simpa using hinv
      | succ k' =>
        have hk' : k' < rest.length := by simpa using hk
        obtain ⟨row, hrw, hrinv⟩ := hrows' k' hk'
        refine ⟨row, by simpa using hrw, ?_⟩
        rw [show pre ++ (e :: rest).take (k' + 1 + 1) =
            (pre ++ [e]) ++ rest.take (k' + 1) by simp]
        exact hrinv

theorem table_spec (entries : List Int) (hss : sum_size entries ≤ 2 ^ 63) :
    ∃ rows,
      build_rows (zero_index entries) (sum_size entries) none 0 entries =
        (List.range' 0 entries.length, some rows) ∧
      rows.length = entries.length ∧
      ∀ k : Nat, k < entries.length →
        ∃ row, rows[k]? = some row ∧
          RowInv row (sum_size entries) (zero_index entries)
            (entries.take (k + 1)) := by
  obtain ⟨rows, htab, hlen, hchar⟩ :=
    build_rows_spec entries hss entries [] none 0 (by simp) (Or.inl ⟨rfl, rfl⟩)
  refine ⟨rows, htab, hlen, fun k hk => ?_⟩
  obtain ⟨row, hrw, hrinv⟩ := hchar k hk
  exact ⟨row, hrw, by simpa using hrinv⟩

theorem build_rows_trace (zi ss : Nat) :
    ∀ (todo : List Int) (prevOpt : Option AtomicBitVec) (i : Nat),
      ∃ m : Nat, m ≤ todo.length ∧
        (build_rows zi ss prevOpt i todo).1 = List.range' i m := by
  intro todo
  induction todo with
  | nil =>
    intro prevOpt i
    exact ⟨0, by simp, rfl⟩
  | cons e rest ih =>
    intro prevOpt i
    cases hr : build_row prevOpt e zi ss with
    | none =>
      refine ⟨1, by simp, ?_⟩
      rw [build_rows, hr]
      rfl
    | some r =>
      obtain ⟨m, hm, htr⟩ := ih (some r) (i + 1)
      refine ⟨m + 1, by simpa using hm, ?_⟩
      simp [build_rows, hr, htr, List.range'_succ]

end Algorithm

namespace Algorithm

theorem run_algorithm_eq (target : Int) (entries : List Int) (tr : List Nat)
    (rows : List AtomicBitVec)
    (htab : build_rows (zero_index entries) (sum_size entries) none 0 entries =
      (tr, some rows)) :
    run_algorithm target entries = (tr, finish target entries rows) := by
  simp only [run_algorithm, htab]

theorem run_algorithm_fst (target : Int) (entries : List Int) :
    (run_algorithm target entries).1 =
      (build_rows (zero_index entries) (sum_size entries) none 0 entries).1 := rfl

end Algorithm

namespace Algorithm

theorem build_rows_snd_none (zi ss : Nat) (prevOpt : Option AtomicBitVec)
    (i : Nat) (e : Int) (rest : List Int)
    (hr : build_row prevOpt e zi ss = none) :
    build_rows zi ss prevOpt i (e :: rest) = ([i], none) := by
  rw [build_rows, hr]

theorem build_rows_trace_of_success (zi ss : Nat) :
    ∀ (todo : List Int) (prevOpt : Option AtomicBitVec) (i : Nat)
      (rows : List AtomicBitVec),
      (build_rows zi ss prevOpt i todo).2 = some rows →
      (build_rows zi ss prevOpt i todo).1 = List.range' i todo.length := by
  intro todo
  induction todo with
  | nil =>
    intro prevOpt i rows _
    rfl
  | cons e rest ih =>
    intro prevOpt i rows hsnd
    cases hr : build_row prevOpt e zi ss with
    | none =>
      rw [build_rows_snd_none zi ss prevOpt i e rest hr] at hsnd
      simp at hsnd
    | some r =>
      rw [build_rows, hr] at hsnd ⊢
      have hsnd' : ((build_rows zi ss (some r) (i + 1) rest).2).map
          (fun x => r :: x) = some rows := hsnd
      obtain ⟨rows', hrows', -⟩ := Option.map_eq_some'.mp hsnd'
      show i :: (build_rows zi ss (some r) (i + 1) rest).1 =
        List.range' i (e :: rest).length
      rw [ih (some r) (i + 1) rows' hrows']
      simp [List.range'_succ]

/-- C8: the engine stores the value i to the progress counter before
processing row i, sequentially for i = 0, 1, ...: the recorded store sequence
is always an initial segment `range m` of the row indices (all of
`range n` whenever the run does not panic while building rows, and in
particular whenever it returns), so the successive values written to the
counter are non-decreasing. -/
theorem claim_C8_progress_monotone (target : Int) (entries : List Int) :
    (∃ m : Nat, m ≤ entries.length ∧
      (run_algorithm target entries).1 = List.range m) ∧
    ((run_algorithm target entries).2 ≠ none →
      (run_algorithm target entries).1 = List.range entries.length) ∧
    List.Chain' (· ≤ ·) (run_algorithm target entries).1 := by
  rw [run_algorithm_fst]
  obtain ⟨m, hm, htr⟩ :=
    build_rows_trace (zero_index entries) (sum_size entries) entries none 0
  refine ⟨⟨m, hm, by rw [htr, List.range_eq_range']⟩, ?_, ?_⟩
  · intro hne
    have hsnd : (run_algorithm target entries).2 =
        match (build_rows (zero_index entries) (sum_size entries)
            none 0 entries).2 with
        | none => none
        | some dp_table => finish target entries dp_table := rfl
    cases hb : (build_rows (zero_index entries) (sum_size entries)
        none 0 entries).2 with
    | none =>
      rw [hb] at hsnd
      exact absurd hsnd hne
    | some rows =>
      rw [build_rows_trace_of_success _ _ entries none 0 rows hb,
        List.range_eq_range']
  · rw [htr]
    exact (List.pairwise_le_range' 0 m).chain'

theorem claim_C8_witness :
    (∃ m : Nat, m ≤ ([2, 3] : List Int).length ∧
      (run_algorithm 5 [2, 3]).1 = List.range m) ∧
    List.Chain' (· ≤ ·) (run_algorithm 5 [2, 3]).1 :=
  ⟨(claim_C8_progress_monotone 5 [2, 3]).1,
    (claim_C8_progress_monotone 5 [2, 3]).2.2⟩

/-- C3: after the row-construction loop finishes, bit b of row i is set if
and only if some sub-multiset of entries[0..=i] sums to b - zero_index, for
every bit index b in [0, sum_size).  The hypothesis bounds the offset space
within the addressable range (larger configurations abort allocation in the
source before any row is readable). -/
theorem claim_C3_row_characterisation (entries : List Int) (i b : Nat)
    (hss : sum_size entries ≤ 2 ^ 63) (hi : i < entries.length)
    (hb : b < sum_size entries) :
    ∃ (rows : List AtomicBitVec) (row : AtomicBitVec),
      (build_rows (zero_index entries) (sum_size entries) none 0 entries).2 =
        some rows ∧
      rows[i]? = some row ∧
      load row b = some (decide (sumsToTarget (entries.take (i + 1))
        ((b : Int) - (zero_index entries : Int)))) := by
  obtain ⟨rows, htab, hlen, hchar⟩ := table_spec entries hss
  obtain ⟨row, hrw, hinv⟩ := hchar i hi
  refine ⟨rows, row, by rw [htab], hrw, ?_⟩
  obtain ⟨hL, hbits, hpad⟩ := hinv
  rw [load, AtomicBitVec.get_eq_bitAt _ _ (by rw [hL]; exact div64_lt _ _ hb),
    hbits b hb]

theorem claim_C3_witness :
    (sum_size [(1 : Int)] ≤ 2 ^ 63 ∧ 0 < ([(1 : Int)] : List Int).length ∧
      1 < sum_size [(1 : Int)]) ∧
    (∃ (rows : List AtomicBitVec) (row : AtomicBitVec),
      (build_rows (zero_index [(1 : Int)]) (sum_size [(1 : Int)])
        none 0 [(1 : Int)]).2 = some rows ∧
      rows[0]? = some row ∧
      load row 1 = some (decide (sumsToTarget (([(1 : Int)] : List Int).take (0 + 1))
        ((1 : Int) - (zero_index [(1 : Int)] : Int))))) :=
  ⟨⟨by decide, by decide, by decide⟩,
    claim_C3_row_characterisation [(1 : Int)] 0 1 (by decide) (by decide) (by decide)⟩

end Algorithm

namespace Algorithm

/-- C2: whenever run_algorithm returns the Rust `None`, no sub-multiset of
the entries sums to the target.  The hypothesis bounds the offset space
within the addressable range (larger configurations abort allocation in the
source and cannot return at all). -/
theorem claim_C2_none_complete (target : Int) (entries : List Int)
    (hss : sum_size entries ≤ 2 ^ 63)
    (hnone : (run_algorithm target entries).2 = some none) :
    ¬ sumsToTarget entries target := by
  intro hS
  obtain ⟨rows, htab, hlen, hchar⟩ := table_spec entries hss
  rw [run_algorithm_eq target entries _ rows htab] at hnone
  have hfin : finish target entries rows = some none := hnone
  have hSb := sumsToTarget_bounds hS
  have hzieq : zero_index entries = most_negative entries := rfl
  have hzimp : (zero_index entries : Int) + (most_positive entries : Int) + 1 =
      (sum_size entries : Int) := by
    unfold zero_index sum_size
    push_cast
    ring
  have hw : usizeOfInt (target + isizeOfUsize (zero_index entries)) =
      (target + (zero_index entries : Int)).toNat := by
    rw [isizeOfUsize_of_lt _ (by omega)]
    exact usizeOfInt_of_nonneg _ (by omega) (by omega)
  have hwlt : (target + (zero_index entries : Int)).toNat < sum_size entries := by
    omega
  have hne : rows ≠ [] := by
    intro h0
    rw [h0] at hfin
    simp [finish] at hfin
  have hpos : 0 < rows.length := List.length_pos.mpr hne
  obtain ⟨row, hrw, hinv⟩ := hchar (rows.length - 1) (by omega)
  have htake : entries.take (rows.length - 1 + 1) = entries := by
    rw [show rows.length - 1 + 1 = entries.length by omega]
    exact List.take_length entries
  rw [htake] at hinv
  obtain ⟨hL, hbits, hpad⟩ := hinv
  have hlast : rows.getLast? = some row := by
    rw [List.getLast?_eq_getElem?]
    exact hrw
  have hload : load row (usizeOfInt (target + isizeOfUsize (zero_index entries))) =
      some true := by
    rw [hw, load,
      AtomicBitVec.get_eq_bitAt _ _ (by rw [hL]; exact div64_lt _ _ hwlt),
      hbits _ hwlt]
    have harg : (((target + (zero_index entries : Int)).toNat : Int) -
        (zero_index entries : Int)) = target := by omega
    rw [harg, decide_eq_true hS]
  simp only [finish, hlast, hload, if_true] at hfin
  cases hrc : reconstruct rows entries (zero_index entries) entries.length
      (usizeOfInt (target + isizeOfUsize (zero_index entries))) [] with
  | none =>
    rw [hrc] at hfin
    simp at hfin
  | some subset =>
    rw [hrc] at hfin
    simp at hfin

theorem claim_C2_witness :
    (sum_size [(1 : Int)] ≤ 2 ^ 63 ∧
      (run_algorithm 3 [(1 : Int)]).2 = some none) ∧
    ¬ sumsToTarget [(1 : Int)] 3 :=
  ⟨⟨by decide, by decide⟩,
    claim_C2_none_complete 3 [(1 : Int)] (by decide) (by decide)⟩

end Algorithm

namespace Algorithm

theorem last_row_spec (entries : List Int) (hss : sum_size entries ≤ 2 ^ 63)
    (hne : entries ≠ []) :
    ∃ (tr : List Nat) (rows : List AtomicBitVec) (row : AtomicBitVec),
      build_rows (zero_index entries) (sum_size entries) none 0 entries =
        (tr, some rows) ∧
      rows.getLast? = some row ∧
      RowInv row (sum_size entries) (zero_index entries) entries := by
  obtain ⟨rows, htab, hlen, hchar⟩ := table_spec entries hss
  have hpos : 0 < entries.length := List.length_pos.mpr hne
  obtain ⟨row, hrw, hinv⟩ := hchar (entries.length - 1) (by omega)
  have htake : entries.take (entries.length - 1 + 1) = entries := by
    rw [show entries.length - 1 + 1 = entries.length by omega]
    exact List.take_length entries
  rw [htake] at hinv
  refine ⟨_, rows, row, htab, ?_, hinv⟩
  rw [List.getLast?_eq_getElem?, hlen]
  exact hrw

/-- C5 (amended): let wantedIndex = target + zero_index and let
rowLen = (sum_size / 64 + 1) * 64 be the 64-bit-padded bit length of a row.
When wantedIndex falls in [sum_size, rowLen) -- outside the offset space but
still inside the padding block -- run_algorithm returns None; but when
wantedIndex is negative or at least rowLen, the unguarded read
`row[n-1].load(wantedIndex)` indexes the bit vector out of bounds and the
program panics instead of returning None. -/
theorem claim_C5_amended (target : Int) (entries : List Int)
    (hne : entries ≠ [])
    (hss : sum_size entries < 2 ^ 63)
    (htlo : -(2 ^ 63 : Int) ≤ target) (hthi : target < 2 ^ 63) :
    ((sum_size entries : Int) ≤ target + (zero_index entries : Int) ∧
      target + (zero_index entries : Int) <
        (((sum_size entries / 64 + 1) * 64 : Nat) : Int) →
      (run_algorithm target entries).2 = some none) ∧
    (target + (zero_index entries : Int) < 0 →
      (run_algorithm target entries).2 = none) ∧
    ((((sum_size entries / 64 + 1) * 64 : Nat) : Int) ≤
        target + (zero_index entries : Int) →
      (run_algorithm target entries).2 = none) := by
  obtain ⟨tr, rows, row, htab, hlast, hL, hbits, hpad⟩ :=
    last_row_spec entries (le_of_lt hss) hne
  rw [run_algorithm_eq target entries tr rows htab]
  have hzi : zero_index entries < sum_size entries := zero_index_lt_sum_size entries
  have hss1 : 1 ≤ sum_size entries := by
    unfold sum_size
    omega
  refine ⟨?_, ?_, ?_⟩
  · rintro ⟨h1, h2⟩
    show finish target entries rows = some none
    have hw : usizeOfInt (target + isizeOfUsize (zero_index entries)) =
        (target + (zero_index entries : Int)).toNat := by
      rw [isizeOfUsize_of_lt _ (by omega)]
      exact usizeOfInt_of_nonneg _ (by omega) (by omega)
    have hload : load row
        (usizeOfInt (target + isizeOfUsize (zero_index entries))) =
        some false := by
      rw [hw, load,
        AtomicBitVec.get_eq_bitAt _ _ (by rw [hL]; omega),
        hpad _ (by omega)]
    simp [finish, hlast, hload]
  · intro h1
    show finish target entries rows = none
    have hw : usizeOfInt (target + isizeOfUsize (zero_index entries)) =
        (target + (zero_index entries : Int) + 2 ^ 64).toNat := by
      rw [isizeOfUsize_of_lt _ (by omega)]
      exact usizeOfInt_of_neg _ h1 (by omega)
    have hload : load row
        (usizeOfInt (target + isizeOfUsize (zero_index entries))) = none := by
      rw [hw, load]
      refine AtomicBitVec.get_none_of_ge _ _ ?_
      rw [hL]
      have : (sum_size entries / 64 + 1) * 64 ≤
          (target + (zero_index entries : Int) + 2 ^ 64).toNat := by omega
      omega
    simp [finish, hlast, hload]
  · intro h1
    show finish target entries rows = none
    have hw : usizeOfInt (target + isizeOfUsize (zero_index entries)) =
        (target + (zero_index entries : Int)).toNat := by
      rw [isizeOfUsize_of_lt _ (by omega)]
      exact usizeOfInt_of_nonneg _ (by omega) (by omega)
    have hload : load row
        (usizeOfInt (target + isizeOfUsize (zero_index entries))) = none := by
      rw [hw, load]
      refine AtomicBitVec.get_none_of_ge _ _ ?_
      rw [hL]
      have : (sum_size entries / 64 + 1) * 64 ≤
          (target + (zero_index entries : Int)).toNat := by omega
      omega
    simp [finish, hlast, hload]

/-- C5 counterexample: with entries [1] (so sum_size = 2, zero_index = 0) and
target -100, wantedIndex = -100 lies outside [0, sum_size), yet the program
does not return None: the cast wraps to 2^64 - 100 and the bit read indexes
out of bounds, a panic (modelled `none`). -/
theorem claim_C5_counterexample :
    (run_algorithm (-100) [(1 : Int)]).2 = none := by decide

theorem claim_C5_witness :
    (([(1 : Int)] : List Int) ≠ [] ∧ sum_size [(1 : Int)] < 2 ^ 63 ∧
      -(2 ^ 63 : Int) ≤ 50 ∧ (50 : Int) < 2 ^ 63 ∧
      ((sum_size [(1 : Int)] : Int) ≤ 50 + (zero_index [(1 : Int)] : Int) ∧
        50 + (zero_index [(1 : Int)] : Int) <
          (((sum_size [(1 : Int)] / 64 + 1) * 64 : Nat) : Int))) ∧
    (run_algorithm 50 [(1 : Int)]).2 = some none :=
  ⟨⟨by decide, by decide, by decide, by decide, by decide, by decide⟩,
    (claim_C5_amended 50 [(1 : Int)] (by decide) (by decide) (by decide)
      (by decide)).1 ⟨by decide, by decide⟩⟩

/-- C1 (code bug): for target 0 and entries [5], run_algorithm returns
Some([5]) although 5 does not sum to the target 0.  The reconstruction loop
at current_i = 0 includes entries[0] unconditionally, even though the target
sum was already accounted for; the code's own sanity-check output
("subset sum == target?") prints false on this input. -/
theorem claim_C1_sum_bug :
    (run_algorithm 0 [(5 : Int)]).2 = some (some [5]) ∧
    ¬ (List.sum [(5 : Int)] = 0) := by
  constructor
  · decide
  · decide

/-- C4 (code bug): on an empty entry sequence the code indexes
`dp_table[total - 1]` with total = 0, an out-of-bounds access that panics
(modelled `none`), instead of short-circuiting to Some([]) for target 0 and
None for other targets as the specification requires. -/
theorem claim_C4_empty_entries_panic :
    (run_algorithm 0 ([] : List Int)).2 = none ∧
    (run_algorithm 5 ([] : List Int)).2 = none := by
  constructor
  · decide
  · decide

end Algorithm
